import Mathlib

/-!
Verification of the vault-builder agent core (task queue, source ingestion
tracker, retrieval/dedup engine, progress store, stage scheduler) against its
natural-language specification.  Each definition is a shallow embedding of the
corresponding TypeScript function; theorems settle the spec's claims.
-/

namespace VaultMaker

/-! ## Data model (src/agent/types.ts) -/

/-- The seven pipeline stages, in their fixed order (types.ts `Stage`). -/
inductive Stage
  | extract
  | organize
  | connect
  | deduce
  | induce
  | organizeAgain
  | validate
deriving DecidableEq, Repr

/-- `STAGES` constant from types.ts: the fixed stage order. -/
def STAGES : List Stage :=
  [.extract, .organize, .connect, .deduce, .induce, .organizeAgain, .validate]

/-- Task kinds (types.ts `TaskKind`). -/
inductive TaskKind
  | extractInsights
  | organizeVault
  | link
  | organizeMoc
  | deduce
  | induce
  | validate
deriving DecidableEq, Repr

/-- Optional task payload (types.ts `QueuedTask.payload`). -/
structure TaskPayload where
  sourceId : Option String := none
  mocPath : Option String := none
  mocTitle : Option String := none
  noteTitles : Option (List String) := none
  mocSummary : Option String := none
deriving DecidableEq, Repr

/-- A queued work item (types.ts `QueuedTask`). -/
structure QueuedTask where
  kind : TaskKind
  stage : Stage
  path : Option String := none
  payload : Option TaskPayload := none
deriving DecidableEq, Repr

/-! ## Task queue (src/agent/queue.ts)

The in-memory queue is an array; we model it as a `List QueuedTask` and each
mutating operation as a function from the old queue to the new queue (plus the
returned value where the source returns one). -/

/-- queue.ts `dequeueForStage`: `findIndex` of the first task whose `stage`
matches, then `splice(idx, 1)` removes exactly that task.  Removing the first
match of a predicate is expressed by the equivalent structural recursion:
skip non-matching heads, keeping them in place. -/
def dequeueForStage (stage : Stage) : List QueuedTask → Option (QueuedTask × List QueuedTask)
  | [] => none
  | t :: rest =>
    if t.stage = stage then some (t, rest)
    else (dequeueForStage stage rest).map (fun p => (p.1, t :: p.2))

/-- queue.ts `hasTaskForStage`. -/
def hasTaskForStage (stage : Stage) (queue : List QueuedTask) : Bool :=
  queue.any (fun t => t.stage = stage)

/-- queue.ts `getQueueLength`. -/
def getQueueLength (queue : List QueuedTask) : Nat := queue.length

/-- queue.ts `getQueueSnapshot`: an (element-wise) copy of the queue. -/
def getQueueSnapshot (queue : List QueuedTask) : List QueuedTask := queue

/-- queue.ts `restoreQueue`: empties the queue and pushes the snapshot tasks,
so the resulting queue is exactly the snapshot. -/
def restoreQueue (_queue tasks : List QueuedTask) : List QueuedTask := tasks

/-- queue.ts `maxLogLines`. -/
def maxLogLines : Nat := 100

/-- queue.ts `appendLog`: push the line, then `shift()` (drop the oldest
line) when the length exceeds `maxLogLines`. -/
def appendLog (log : List String) (line : String) : List String :=
  if maxLogLines < (log ++ [line]).length then (log ++ [line]).drop 1
  else log ++ [line]

/-- queue.ts `getLog`: a copy of the log lines. -/
def getLog (log : List String) : List String := log

/-! ## Source ingestion tracker (src/storage/sourceIndex.ts) -/

/-- sourceIndex.ts `SourceIndexEntry`. -/
structure SourceIndexEntry where
  sourceId : String
  contentHash : String
deriving DecidableEq, Repr

/-- sourceIndex.ts `SourceIndexData`; the `entries` record is modelled as an
association list keyed by relative path. -/
structure SourceIndexData where
  sourceDir : String
  entries : List (String × SourceIndexEntry)
  lastUpdated : String
deriving DecidableEq, Repr

/-- sourceIndex.ts `needsProcessing`: true when the tracked root changed, the
relative path has no entry, or the stored hash differs.  A pure function of
exactly these four inputs (no clock, no file metadata). -/
def needsProcessing (index : SourceIndexData) (relPath contentHash sourceDir : String) :
    Bool :=
  if index.sourceDir ≠ sourceDir then true
  else
    match index.entries.lookup relPath with
    | none => true
    | some entry => entry.contentHash ≠ contentHash

/-! ## Progress store (src/storage/progress.ts) -/

/-- progress.ts `ProgressData`. -/
structure ProgressData where
  processedSourceIds : List String
  currentStage : Option Stage
  queue : List QueuedTask
  lastUpdated : String
deriving DecidableEq, Repr

/-- progress.ts `restoreFromProgress` result record. -/
structure RestoreResult where
  restored : Bool
  currentStage : Option Stage
  processedCount : Nat
  queueLength : Nat
deriving DecidableEq, Repr

/-- progress.ts `restoreFromProgress`.  `loaded` is the result of
`loadProgress` (`none` covers both an absent and an invalid progress file);
`queue` is the current in-memory queue, whose length the caller passes as
`currentQueueLength`.  Returns the new in-memory queue and the result record. -/
def restoreFromProgress (loaded : Option ProgressData) (queue : List QueuedTask) :
    List QueuedTask × RestoreResult :=
  match loaded with
  | none => (queue, ⟨false, none, 0, 0⟩)
  | some data =>
    if data.queue.length = 0 then
      (queue, ⟨false, none, 0, 0⟩)
    else if 0 < queue.length then
      (queue, ⟨false, none, data.processedSourceIds.length, queue.length⟩)
    else
      (restoreQueue queue data.queue,
        ⟨true, data.currentStage, data.processedSourceIds.length, data.queue.length⟩)

/-! ## Retrieval engine numerics (src/retrieval/retrieve.ts)

`cosineSimilarity` works on JavaScript `number[]` vectors; the numeric model
is exact real arithmetic over `List ℝ`. -/

/-- The accumulation loop of retrieve.ts `cosineSimilarity`:
`dot += a[i] * b[i]` over the common indices. -/
def dotProd : List ℝ → List ℝ → ℝ
  | [], _ => 0
  | _, [] => 0
  | x :: a, y :: b => x * y + dotProd a b

/-- The `normA += a[i] * a[i]` accumulator (squared L2 norm). -/
def sumSq (a : List ℝ) : ℝ := dotProd a a

/-- retrieve.ts `cosineSimilarity`: returns 0 on length mismatch or empty
input, returns 0 when the denominator `sqrt(normA) * sqrt(normB)` is zero,
and otherwise the dot product divided by that denominator. -/
noncomputable def cosineSimilarity (a b : List ℝ) : ℝ :=
  if a.length ≠ b.length ∨ a.length = 0 then 0
  else if Real.sqrt (sumSq a) * Real.sqrt (sumSq b) = 0 then 0
  else dotProd a b / (Real.sqrt (sumSq a) * Real.sqrt (sumSq b))

/-- retrieve.ts `similarity` (the exported dedup-facing wrapper). -/
noncomputable def similarity (a b : List ℝ) : ℝ := cosineSimilarity a b

theorem sumSq_nil : sumSq [] = 0 := rfl

theorem sumSq_cons (x : ℝ) (a : List ℝ) : sumSq (x :: a) = x * x + sumSq a := rfl

theorem sumSq_nonneg (a : List ℝ) : 0 ≤ sumSq a := by
  induction a with
  | nil => rw [sumSq_nil]
  | cons x a ih =>
    rw [sumSq_cons]
    have := mul_self_nonneg x
    linarith

theorem sumSq_pos_of_mem {a : List ℝ} {x : ℝ} (hx : x ∈ a) (hxne : x ≠ 0) :
    0 < sumSq a := by
  induction a with
  | nil => exact absurd hx (List.not_mem_nil x)
  | cons y a ih =>
    rw [sumSq_cons]
    rcases List.mem_cons.mp hx with rfl | hmem
    · have h1 : 0 < x * x := mul_self_pos.mpr hxne
      have h2 := sumSq_nonneg a
      linarith
    · have h1 := ih hmem
      have h2 := mul_self_nonneg y
      linarith

/-- Cauchy-Schwarz for the list dot product. -/
theorem dotProd_sq_le (a : List ℝ) : ∀ b : List ℝ,
    (dotProd a b) ^ 2 ≤ sumSq a * sumSq b := by
  induction a with
  | nil =>
    intro b
    simp [dotProd, sumSq_nil]
  | cons x a ih =>
    intro b
    cases b with
    | nil =>
      simp only [dotProd]
      have h1 := sumSq_nonneg (x :: a)
      have h2 : sumSq ([] : List ℝ) = 0 := sumSq_nil
      rw [h2]
      norm_num
    | cons y b =>
      have hCS := ih b
      have hp := sumSq_nonneg a
      have hq := sumSq_nonneg b
      simp only [dotProd, sumSq_cons]
      show (x * y + dotProd a b) ^ 2 ≤ (x * x + sumSq a) * (y * y + sumSq b)
      by_cases hq0 : sumSq b = 0
      · have hd0 : dotProd a b = 0 := by
          have : (dotProd a b) ^ 2 ≤ 0 := by
            calc (dotProd a b) ^ 2 ≤ sumSq a * sumSq b := hCS
            _ = 0 := by rw [hq0, mul_zero]
          have := sq_nonneg (dotProd a b)
          nlinarith [sq_abs (dotProd a b)]
        rw [hq0, hd0]
        nlinarith [mul_self_nonneg (x * y), mul_self_nonneg y, sq_nonneg x]
      · have hqpos : 0 < sumSq b := lt_of_le_of_ne hq (Ne.symm hq0)
        nlinarith [sq_nonneg (x * sumSq b - y * dotProd a b),
          mul_nonneg (mul_self_nonneg y) (sub_nonneg.mpr hCS),
          mul_nonneg hq (sub_nonneg.mpr hCS), sq_nonneg (x * y - dotProd a b)]

/-- The dot product is bounded by the product of the two L2 norms. -/
theorem abs_dotProd_le (a b : List ℝ) :
    |dotProd a b| ≤ Real.sqrt (sumSq a) * Real.sqrt (sumSq b) := by
  have h := dotProd_sq_le a b
  have := Real.sqrt_le_sqrt h
  rw [Real.sqrt_sq_eq_abs, Real.sqrt_mul (sumSq_nonneg a)] at this
  exact this

/-! ## C3: cosineSimilarity -/

/-- C3: `cosineSimilarity` equals the dot product divided by the product of
the L2 norms (for equal-length non-empty vectors, including the zero-norm
case where both sides are 0); the result always lies in `[-1, 1]`; a vector
of zero norm gives exactly 0; and `cosineSimilarity a a = 1` for every
nonzero vector `a`. -/
theorem cosineSimilarity_spec :
    (∀ a b : List ℝ, a.length = b.length → a ≠ [] →
      cosineSimilarity a b =
        dotProd a b / (Real.sqrt (sumSq a) * Real.sqrt (sumSq b))) ∧
    (∀ a b : List ℝ, -1 ≤ cosineSimilarity a b ∧ cosineSimilarity a b ≤ 1) ∧
    (∀ a b : List ℝ,
      Real.sqrt (sumSq a) = 0 ∨ Real.sqrt (sumSq b) = 0 →
      cosineSimilarity a b = 0) ∧
    (∀ a : List ℝ, (∃ x ∈ a, x ≠ 0) → cosineSimilarity a a = 1) := by
  have hlen0 : ∀ a b : List ℝ, a.length = b.length → a ≠ [] →
      ¬ (a.length ≠ b.length ∨ a.length = 0) := by
    intro a b hab ha
    push_neg
    exact ⟨hab, by simpa [List.length_eq_zero] using ha⟩
  refine ⟨?_, ?_, ?_, ?_⟩
  · intro a b hab ha
    rw [cosineSimilarity, if_neg (hlen0 a b hab ha)]
    by_cases hd : Real.sqrt (sumSq a) * Real.sqrt (sumSq b) = 0
    · rw [if_pos hd, hd, div_zero]
    · rw [if_neg hd]
  · intro a b
    rw [cosineSimilarity]
    by_cases h1 : a.length ≠ b.length ∨ a.length = 0
    · rw [if_pos h1]; norm_num
    · rw [if_neg h1]
      by_cases hd : Real.sqrt (sumSq a) * Real.sqrt (sumSq b) = 0
      · rw [if_pos hd]; norm_num
      · rw [if_neg hd]
        have hnn : 0 ≤ Real.sqrt (sumSq a) * Real.sqrt (sumSq b) :=
          mul_nonneg (Real.sqrt_nonneg _) (Real.sqrt_nonneg _)
        have hpos : 0 < Real.sqrt (sumSq a) * Real.sqrt (sumSq b) :=
          lt_of_le_of_ne hnn (Ne.symm hd)
        have habs := abs_dotProd_le a b
        constructor
        · rw [le_div_iff₀ hpos]
          have := neg_abs_le (dotProd a b)
          linarith
        · rw [div_le_one hpos]
          exact le_trans (le_abs_self _) habs
  · intro a b h
    rw [cosineSimilarity]
    by_cases h1 : a.length ≠ b.length ∨ a.length = 0
    · rw [if_pos h1]
    · have hd : Real.sqrt (sumSq a) * Real.sqrt (sumSq b) = 0 := by
        rcases h with h | h
        · rw [h, zero_mul]
        · rw [h, mul_zero]
      rw [if_neg h1, if_pos hd]
  · intro a ⟨x, hx, hxne⟩
    have hane : a ≠ [] := by
      intro h; rw [h] at hx; exact absurd hx (List.not_mem_nil x)
    have hpos : 0 < sumSq a := sumSq_pos_of_mem hx hxne
    rw [cosineSimilarity, if_neg (hlen0 a a rfl hane)]
    have hsq : Real.sqrt (sumSq a) * Real.sqrt (sumSq a) = sumSq a :=
      Real.mul_self_sqrt (sumSq_nonneg a)
    rw [hsq]
    rw [if_neg (ne_of_gt hpos)]
    exact div_self (ne_of_gt hpos)

/-- C3 witness: `cosineSimilarity` of the nonzero vector `[1, 0]` with itself
is exactly 1, and similarity with the zero vector `[0]` is exactly 0. -/
theorem cosineSimilarity_spec_witness :
    cosineSimilarity [(1 : ℝ), 0] [(1 : ℝ), 0] = 1 ∧
    cosineSimilarity [(0 : ℝ)] [(1 : ℝ)] = 0 :=
  ⟨cosineSimilarity_spec.2.2.2 [(1 : ℝ), 0] ⟨1, by simp, one_ne_zero⟩,
   cosineSimilarity_spec.2.2.1 [(0 : ℝ)] [(1 : ℝ)]
     (Or.inl (by rw [show sumSq [(0 : ℝ)] = 0 by norm_num [sumSq, dotProd], Real.sqrt_zero]))⟩

/-! ## Retrieval index and keyword fallback (src/retrieval/retrieve.ts)

JavaScript strings are modelled as `List Char`. -/

/-- An entry of the retrieval index (spec §3 `IndexEntry`, as consumed by
retrieve.ts: `title`, `path`, `textSnippet`, optional `embedding`). -/
structure IndexEntry where
  title : List Char
  path : String
  textSnippet : List Char
  embedding : Option (List ℝ) := none

/-- The character class `[a-z0-9]` of the tokenizer's split regex. -/
def isTokenChar (c : Char) : Bool :=
  (decide ('a' ≤ c) && decide (c ≤ 'z')) || (decide ('0' ≤ c) && decide (c ≤ '9'))

/-- Splitting on runs of non-`[a-z0-9]` characters while dropping empty
pieces: `acc` holds the (reversed) current run of token characters. -/
def tokenizeAux : List Char → List Char → List (List Char)
  | [], acc => if acc = [] then [] else [acc.reverse]
  | c :: rest, acc =>
    if isTokenChar c then tokenizeAux rest (c :: acc)
    else if acc = [] then tokenizeAux rest []
    else acc.reverse :: tokenizeAux rest []

/-- retrieve.ts `tokenize`: lower-case, then split on `[^a-z0-9]+` and keep
the non-empty pieces.  (The source's intermediate `replace(\s+, " ")` does
not change the result, since whitespace is already a separator.) -/
def tokenize (text : List Char) : List (List Char) :=
  tokenizeAux (text.map Char.toLower) []

/-- The ranking target of retrieve.ts `keywordScore`:
`(entry.title + " " + entry.textSnippet).toLowerCase()`. -/
def entryTarget (e : IndexEntry) : List Char :=
  (e.title ++ ' ' :: e.textSnippet).map Char.toLower

/-- The `Set` of the entry's tokens built in retrieve.ts `keywordScore`. -/
def entryTokenSet (e : IndexEntry) : List (List Char) :=
  (tokenize (entryTarget e)).dedup

/-- retrieve.ts `keywordScore`: walk the query tokens (an array, so repeated
tokens are counted once per occurrence) and count those present in the
entry's token set. -/
def keywordScore (queryTokens : List (List Char)) (e : IndexEntry) : Nat :=
  (queryTokens.filter (fun t => t ∈ entryTokenSet e)).length

/-- The score the spec sentence describes, for comparison with the source's
`keywordScore`: the size of the intersection of the query's token SET and
the entry's token set (every query token counted at most once). -/
def tokenSetIntersectionScore (query : List Char) (e : IndexEntry) : Nat :=
  ((tokenize query).dedup.filter (fun t => t ∈ entryTokenSet e)).length

/-- Stable insertion into a descending-score list: the new element goes
before the first element whose score does not exceed it, so among equal
scores earlier-inserted elements stay earlier. -/
def insertByScore (x : List Char × Nat) : List (List Char × Nat) → List (List Char × Nat)
  | [] => [x]
  | y :: rest => if y.2 ≤ x.2 then x :: y :: rest else y :: insertByScore x rest

/-- The stable descending sort by score used by retrieve.ts
(`scored.sort((a, b) => b.score - a.score)`; JavaScript array sort is
stable, which any stable descending sort models extensionally). -/
def sortByScoreDesc : List (List Char × Nat) → List (List Char × Nat)
  | [] => []
  | x :: xs => insertByScore x (sortByScoreDesc xs)

/-- The keyword-fallback path of retrieve.ts `getRelevantTitles`
(lines 62-98): empty index gives `[]`; `limit = max(1, options.limit)`;
an empty query token list gives the first `limit` entries in index order;
otherwise entries are scored, stably sorted by descending score, truncated
to `limit`, and mapped to their titles. -/
def getRelevantTitlesKeyword (entries : List IndexEntry) (queryText : List Char)
    (limit0 : Nat) : List (List Char) :=
  if entries.length = 0 then []
  else
    let limit := max 1 limit0
    let queryTokens := tokenize queryText
    if queryTokens.length = 0 then (entries.take limit).map (fun e => e.title)
    else
      ((sortByScoreDesc
          (entries.map (fun e => (e.title, keywordScore queryTokens e)))).take limit).map
        (fun p => p.1)

theorem insertByScore_perm (x : List Char × Nat) (l : List (List Char × Nat)) :
    List.Perm (insertByScore x l) (x :: l) := by
  induction l with
  | nil => exact List.Perm.refl _
  | cons y rest ih =>
    rw [insertByScore]
    by_cases h : y.2 ≤ x.2
    · rw [if_pos h]
    · rw [if_neg h]
      exact List.Perm.trans (List.Perm.cons y ih) (List.Perm.swap x y rest)

theorem insertByScore_pairwise (x : List Char × Nat) (l : List (List Char × Nat))
    (h : l.Pairwise (fun a b => b.2 ≤ a.2)) :
    (insertByScore x l).Pairwise (fun a b => b.2 ≤ a.2) := by
  induction l with
  | nil => simp [insertByScore]
  | cons y rest ih =>
    rw [List.pairwise_cons] at h
    obtain ⟨hy, hrest⟩ := h
    rw [insertByScore]
    by_cases hle : y.2 ≤ x.2
    · rw [if_pos hle]
      refine List.pairwise_cons.mpr ⟨?_, List.pairwise_cons.mpr ⟨hy, hrest⟩⟩
      intro z hz
      rcases List.mem_cons.mp hz with rfl | hz
      · exact hle
      · exact le_trans (hy z hz) hle
    · rw [if_neg hle]
      refine List.pairwise_cons.mpr ⟨?_, ih hrest⟩
      intro z hz
      have hz' : z ∈ x :: rest := (insertByScore_perm x rest).mem_iff.mp hz
      rcases List.mem_cons.mp hz' with rfl | hz2
      · exact le_of_lt (Nat.lt_of_not_le hle)
      · exact hy z hz2

theorem insertByScore_filter_score (x : List Char × Nat) (l : List (List Char × Nat))
    (s : Nat) :
    (insertByScore x l).filter (fun p => p.2 = s) =
      if x.2 = s then x :: l.filter (fun p => p.2 = s)
      else l.filter (fun p => p.2 = s) := by
  induction l with
  | nil =>
    rw [insertByScore]
    by_cases hx : x.2 = s <;> simp [hx]
  | cons y rest ih =>
    rw [insertByScore]
    by_cases hle : y.2 ≤ x.2
    · rw [if_pos hle]
      by_cases hx : x.2 = s <;> simp [hx, List.filter_cons]
    · rw [if_neg hle]
      by_cases hx : x.2 = s
      · have hy : ¬ y.2 = s := by
          intro h
          exact hle (le_of_eq (h.trans hx.symm))
        simp [List.filter_cons, hx, hy, ih]
      · simp [List.filter_cons, hx, ih]

theorem sortByScoreDesc_perm (l : List (List Char × Nat)) :
    List.Perm (sortByScoreDesc l) l := by
  induction l with
  | nil => exact List.Perm.refl _
  | cons x xs ih =>
    exact List.Perm.trans (insertByScore_perm x (sortByScoreDesc xs)) (List.Perm.cons x ih)

theorem sortByScoreDesc_pairwise (l : List (List Char × Nat)) :
    (sortByScoreDesc l).Pairwise (fun a b => b.2 ≤ a.2) := by
  induction l with
  | nil => simp [sortByScoreDesc]
  | cons x xs ih => exact insertByScore_pairwise x (sortByScoreDesc xs) ih

theorem sortByScoreDesc_filter_score (l : List (List Char × Nat)) (s : Nat) :
    (sortByScoreDesc l).filter (fun p => p.2 = s) = l.filter (fun p => p.2 = s) := by
  induction l with
  | nil => rfl
  | cons x xs ih =>
    rw [sortByScoreDesc, insertByScore_filter_score, List.filter_cons]
    by_cases hx : x.2 = s <;> simp [hx, ih]

/-- Helper for the tokenizer shape: every token produced by `tokenizeAux` is
non-empty and consists of `[a-z0-9]` characters, provided the accumulator
does. -/
theorem tokenizeAux_shape (cs : List Char) :
    ∀ acc : List Char, acc.all isTokenChar →
      ∀ t ∈ tokenizeAux cs acc, t ≠ [] ∧ t.all isTokenChar := by
  induction cs with
  | nil =>
    intro acc hacc t ht
    rw [tokenizeAux] at ht
    by_cases h : acc = []
    · rw [if_pos h] at ht
      exact absurd ht (List.not_mem_nil t)
    · rw [if_neg h] at ht
      have hrev : t = acc.reverse := List.mem_singleton.mp ht
      subst hrev
      constructor
      · simpa using h
      · rw [List.all_eq_true]
        intro d hd
        rw [List.all_eq_true] at hacc
        exact hacc d (List.mem_reverse.mp hd)
  | cons c rest ih =>
    intro acc hacc t ht
    rw [tokenizeAux] at ht
    by_cases hc : isTokenChar c = true
    · rw [if_pos hc] at ht
      refine ih (c :: acc) ?_ t ht
      rw [List.all_cons, hc, Bool.true_and]
      exact hacc
    · rw [if_neg hc] at ht
      by_cases h : acc = []
      · rw [if_pos h] at ht
        exact ih [] rfl t ht
      · rw [if_neg h] at ht
        rcases List.mem_cons.mp ht with hfirst | ht'
        · subst hfirst
          constructor
          · simpa using h
          · rw [List.all_eq_true]
            intro d hd
            rw [List.all_eq_true] at hacc
            exact hacc d (List.mem_reverse.mp hd)
        · exact ih [] rfl t ht'

/-! ## C4: keyword fallback of getRelevantTitles -/

/-- C4 counterexample: the claim says an entry's keyword score equals the
size of the intersection of the query's token SET and the entry's token
set.  For the query "cat cat" (whose token list repeats `cat`) and an entry
titled "cat", the source's `keywordScore` is 2 while the token-set
intersection has size 1. -/
theorem keywordScore_not_set_intersection :
    keywordScore (tokenize ("cat cat".toList))
        (IndexEntry.mk ("cat".toList) "cat.md" [] none) = 2 ∧
    tokenSetIntersectionScore ("cat cat".toList)
        (IndexEntry.mk ("cat".toList) "cat.md" [] none) = 1 := by
  constructor <;> decide

/-- C4 (amended): in the keyword fallback, query and entry text are
lower-cased and tokenized into non-empty runs of `[a-z0-9]` characters; each
entry's score counts the query's tokens (with multiplicity — one count per
occurrence in the query token list) that lie in the entry's token set, which
equals the size of the query/entry token-set intersection whenever the
query's tokens are distinct; entries with equal score keep index insertion
order through the stable descending sort; and a query with no tokens returns
the first `max 1 limit` entries in index order. -/
theorem getRelevantTitlesKeyword_spec :
    (∀ s : List Char, ∀ t ∈ tokenize s, t ≠ [] ∧ t.all isTokenChar) ∧
    (∀ (query : List Char) (e : IndexEntry), (tokenize query).Nodup →
      keywordScore (tokenize query) e = tokenSetIntersectionScore query e) ∧
    (∀ l : List (List Char × Nat),
      List.Perm (sortByScoreDesc l) l ∧
      (sortByScoreDesc l).Pairwise (fun a b => b.2 ≤ a.2) ∧
      ∀ s : Nat, (sortByScoreDesc l).filter (fun p => p.2 = s) =
        l.filter (fun p => p.2 = s)) ∧
    (∀ (entries : List IndexEntry) (query : List Char) (limit : Nat),
      entries ≠ [] → tokenize query = [] →
      getRelevantTitlesKeyword entries query limit =
        (entries.take (max 1 limit)).map (fun e => e.title)) := by
  refine ⟨?_, ?_, ?_, ?_⟩
  · intro s t ht
    exact tokenizeAux_shape (s.map Char.toLower) [] rfl t ht
  · intro query e hnd
    rw [keywordScore, tokenSetIntersectionScore, List.Nodup.dedup hnd]
  · intro l
    exact ⟨sortByScoreDesc_perm l, sortByScoreDesc_pairwise l,
      fun s => sortByScoreDesc_filter_score l s⟩
  · intro entries query limit hne hq
    rw [getRelevantTitlesKeyword]
    have hlen : ¬ entries.length = 0 := by
      simpa [List.length_eq_zero] using hne
    rw [if_neg hlen]
    simp [hq]

/-- C4 witness: for the entry titled "beta" and the duplicate-free query
"alpha beta", the keyword score equals the token-set intersection size; and
for a token-free query the first `max 1 limit` entries come back in index
order. -/
theorem getRelevantTitlesKeyword_spec_witness :
    keywordScore (tokenize ("alpha beta".toList))
        (IndexEntry.mk ("beta".toList) "b.md" [] none) =
      tokenSetIntersectionScore ("alpha beta".toList)
        (IndexEntry.mk ("beta".toList) "b.md" [] none) ∧
    getRelevantTitlesKeyword
        [IndexEntry.mk ("beta".toList) "b.md" [] none] ("!!".toList) 2 =
      [("beta".toList)] :=
  ⟨getRelevantTitlesKeyword_spec.2.1 ("alpha beta".toList)
      (IndexEntry.mk ("beta".toList) "b.md" [] none) (by decide),
   getRelevantTitlesKeyword_spec.2.2.2
      [IndexEntry.mk ("beta".toList) "b.md" [] none] ("!!".toList) 2
      (List.cons_ne_nil _ _) (by decide)⟩

/-! ## Dedup gate of extractInsightsFromSource (src/agent/insights.ts) -/

/-- The character class `[/\\?%*:|"<>]` replaced by `-` when sanitizing a
candidate note title. -/
def sanitizeChar (c : Char) : Char :=
  if c ∈ ['/', '\\', '?', '%', '*', ':', '|', '"', '<', '>'] then '-' else c

/-- JavaScript `String.prototype.trim`: drop whitespace at both ends. -/
def trimChars (s : List Char) : List Char :=
  ((s.dropWhile Char.isWhitespace).reverse.dropWhile Char.isWhitespace).reverse

/-- insights.ts: `note.title.replace(/[/\\?%*:|"<>]/g, "-").trim() || "Untitled"`. -/
def safeTitleOf (title : List Char) : List Char :=
  if trimChars (title.map sanitizeChar) = [] then "Untitled".toList
  else trimChars (title.map sanitizeChar)

/-- insights.ts: `index.entries.some((e) => e.embedding && e.embedding.length > 0)`. -/
def hasIndexedEmbedding (entries : List IndexEntry) : Bool :=
  entries.any (fun e =>
    match e.embedding with
    | some emb => 0 < emb.length
    | none => false)

/-- The `maxSim` accumulation loop of insights.ts: over all entries with a
non-empty stored embedding, keep the largest similarity to the candidate
embedding, starting from 0. -/
noncomputable def maxSimToIndex (cand : List ℝ) (entries : List IndexEntry) : ℝ :=
  entries.foldl
    (fun m e =>
      match e.embedding with
      | some emb =>
        if 0 < emb.length then
          if m < similarity cand emb then similarity cand emb else m
        else m
      | none => m) 0

/-- The outcome of the per-candidate dedup gate. -/
inductive CandidateDecision
  | duplicateTitle
  | similarReject
  | written
deriving DecidableEq, Repr

/-- The state touched by one candidate of `extractInsightsFromSource`:
note files written so far, the in-memory set of existing titles, and the
retrieval-index entries. -/
structure ExtractState where
  writtenFiles : List (List Char)
  existingTitles : List (List Char)
  entries : List IndexEntry

/-- `Insights/<safeTitle>.md`. -/
def insightRelPath (t : List Char) : List Char :=
  "Insights/".toList ++ t ++ ".md".toList

/-- embeddingIndex.ts `indexNote`, on the entries list: `findIndex` of the
first entry with the same title; when found that single entry is replaced in
place, otherwise the new entry is pushed at the end.  Replacing the first
match of a predicate is expressed by the equivalent structural recursion. -/
def indexNote (entries : List IndexEntry) (e : IndexEntry) : List IndexEntry :=
  match entries with
  | [] => [e]
  | x :: rest => if x.title = e.title then e :: rest else x :: indexNote rest e

open Classical

/-- The per-candidate dedup gate and write step of insights.ts
`extractInsightsFromSource` (the body of `for (const note of insights)`),
with the embedding client's answer for the candidate passed as `embedCand`
and the embedding stored on a successful write as `storedEmb`:
1. a sanitized title already present is rejected before any similarity
   computation (the function does not even inspect `embedCand`);
2. otherwise, when embeddings are in use, a client is set and some entry has
   a stored embedding, a maximum similarity at or above the threshold skips
   the candidate with no state change;
3. otherwise the note file is written, the title recorded and the index
   entry upserted. -/
noncomputable def processCandidate (useEmbeddings hasClient : Bool)
    (dedupThreshold : ℝ) (embedCand : List ℝ) (storedEmb : Option (List ℝ))
    (title snippet : List Char) (st : ExtractState) :
    ExtractState × CandidateDecision :=
  if safeTitleOf title ∈ st.existingTitles then (st, .duplicateTitle)
  else if useEmbeddings && hasClient && hasIndexedEmbedding st.entries then
    if dedupThreshold ≤ maxSimToIndex embedCand st.entries then (st, .similarReject)
    else
      ({ writtenFiles := st.writtenFiles ++ [insightRelPath (safeTitleOf title)],
         existingTitles := st.existingTitles ++ [safeTitleOf title],
         entries := indexNote st.entries
           ⟨safeTitleOf title, String.mk (insightRelPath (safeTitleOf title)),
            snippet, storedEmb⟩ }, .written)
  else
    ({ writtenFiles := st.writtenFiles ++ [insightRelPath (safeTitleOf title)],
       existingTitles := st.existingTitles ++ [safeTitleOf title],
       entries := indexNote st.entries
         ⟨safeTitleOf title, String.mk (insightRelPath (safeTitleOf title)),
          snippet, storedEmb⟩ }, .written)

/-- agentConfig.ts `DEFAULTS.dedupSimilarityThreshold`. -/
noncomputable def defaultDedupSimilarityThreshold : ℝ := 92 / 100

/-- insights.ts: `config.dedupSimilarityThreshold ?? 0.92`. -/
noncomputable def resolveDedupThreshold (cfg : Option ℝ) : ℝ :=
  cfg.getD defaultDedupSimilarityThreshold

/-- The `maxSim` accumulator never drops below its start value. -/
theorem maxSimToIndex_nonneg (cand : List ℝ) (entries : List IndexEntry) :
    0 ≤ maxSimToIndex cand entries := by
  rw [maxSimToIndex]
  have key : ∀ (es : List IndexEntry) (m : ℝ), m ≤ es.foldl
      (fun m e =>
        match e.embedding with
        | some emb =>
          if 0 < emb.length then
            if m < similarity cand emb then similarity cand emb else m
          else m
        | none => m) m := by
    intro es
    induction es with
    | nil => intro m; exact le_refl m
    | cons e rest ih =>
      intro m
      rw [List.foldl_cons]
      refine le_trans ?_ (ih _)
      rcases e.embedding with _ | emb
      · exact le_refl m
      · by_cases hlen : 0 < emb.length
        · by_cases hsim : m < similarity cand emb
          · simp only [hlen, if_pos, hsim, if_true]
            simpa [hlen, hsim] using le_of_lt hsim
          · simp [hlen, hsim]
        · simp [hlen]
  exact key _ 0

/-! ## C5: pre-write dedup gate -/

/-- C5: a candidate whose sanitized title already exists is rejected without
any similarity computation (the outcome does not depend on the candidate's
embedding at all, and the state is untouched); otherwise, when embeddings
are in use with a client set and at least one indexed embedding, a maximum
similarity at or above the threshold makes the candidate be skipped
silently: no note file is written, the title set and retrieval index are
unchanged, and no error is raised (the gate returns normally with
`similarReject`).  The configured threshold defaults to 0.92. -/
theorem extractInsights_dedup_gate_spec :
    (∀ (ue hc : Bool) (th : ℝ) (emb1 emb2 : List ℝ) (storedEmb : Option (List ℝ))
        (title snippet : List Char) (st : ExtractState),
      safeTitleOf title ∈ st.existingTitles →
        processCandidate ue hc th emb1 storedEmb title snippet st = (st, .duplicateTitle) ∧
        processCandidate ue hc th emb1 storedEmb title snippet st =
          processCandidate ue hc th emb2 storedEmb title snippet st) ∧
    (∀ (th : ℝ) (embedCand : List ℝ) (storedEmb : Option (List ℝ))
        (title snippet : List Char) (st : ExtractState),
      safeTitleOf title ∉ st.existingTitles →
      hasIndexedEmbedding st.entries = true →
      th ≤ maxSimToIndex embedCand st.entries →
        processCandidate true true th embedCand storedEmb title snippet st =
          (st, .similarReject)) ∧
    resolveDedupThreshold none = 92 / 100 := by
  refine ⟨?_, ?_, rfl⟩
  · intro ue hc th emb1 emb2 storedEmb title snippet st hmem
    constructor
    · rw [processCandidate, if_pos hmem]
    · rw [processCandidate, if_pos hmem, processCandidate, if_pos hmem]
  · intro th embedCand storedEmb title snippet st hmem hidx hsim
    rw [processCandidate, if_neg hmem]
    have hcond : (true && true && hasIndexedEmbedding st.entries) = true := by
      simp [hidx]
    rw [if_pos hcond, if_pos hsim]

/-- C5 witness: with an existing title "cat" the candidate "cat" is rejected
as a duplicate with the state untouched and without regard to its embedding;
and a fresh candidate whose maximum indexed similarity reaches the threshold
(threshold 0 here, which every maximum similarity reaches) is skipped with
the state untouched. -/
theorem extractInsights_dedup_gate_spec_witness :
    (processCandidate true true (92 / 100) [1] none ("cat".toList) []
        ⟨[], [("cat".toList)], [IndexEntry.mk [] "x" [] (some [1])]⟩ =
      (⟨[], [("cat".toList)], [IndexEntry.mk [] "x" [] (some [1])]⟩,
        .duplicateTitle)) ∧
    (processCandidate true true 0 [1] none ("dog".toList) []
        ⟨[], [("cat".toList)], [IndexEntry.mk [] "x" [] (some [1])]⟩ =
      (⟨[], [("cat".toList)], [IndexEntry.mk [] "x" [] (some [1])]⟩,
        .similarReject)) :=
  ⟨(extractInsights_dedup_gate_spec.1 true true (92 / 100) [1] [0] none
      ("cat".toList) []
      ⟨[], [("cat".toList)], [IndexEntry.mk [] "x" [] (some [1])]⟩
      (by decide)).1,
   extractInsights_dedup_gate_spec.2.1 0 [1] none ("dog".toList) []
      ⟨[], [("cat".toList)], [IndexEntry.mk [] "x" [] (some [1])]⟩
      (by decide) (by decide)
      (maxSimToIndex_nonneg [1] [IndexEntry.mk [] "x" [] (some [1])])⟩

/-! ## Stage scheduler loop (src/agent/loop.ts, staged version)

The loop body of `runLoop` is modelled as a step function on a loop state
(current stage, queue, log).  The two external effects are parameters: one
oracle gives the tasks `enqueueWorkForStage` derives from the vault for a
stage, the other gives the outcome of executing one task (normal completion
with its informational log lines, or a thrown exception's message). -/

/-- types.ts `AgentStatus`. -/
inductive AgentStatus
  | idle
  | processing
  | stopping
deriving DecidableEq, Repr

/-- The string form of a stage (the `Stage` union's literal values). -/
def stageName : Stage → String
  | .extract => "extract"
  | .organize => "organize"
  | .connect => "connect"
  | .deduce => "deduce"
  | .induce => "induce"
  | .organizeAgain => "organize-again"
  | .validate => "validate"

/-- The in-loop state of `runLoop`: `state.currentStage` (non-null inside
the loop), the queue, and the ring-buffered log. -/
structure LoopState where
  currentStage : Stage
  queue : List QueuedTask
  log : List String
deriving DecidableEq, Repr

/-- Outcome of one loop iteration: continue with a new state, or return
(the loop sets the stage to null, goes idle and exits). -/
inductive StepOutcome
  | next (s : LoopState)
  | stopped (log : List String)
deriving DecidableEq, Repr

/-- The task-dispatch chain of `runLoop` (lines 242-358): every branch wraps
its work in try/catch; the catch only appends a log line naming the task and
never re-enqueues; branches whose guards fail (e.g. a `link` task without a
path) fall through with no effect.  `exec` abstracts the externally
determined body: `.ok lines` is normal completion appending the body's
informational lines, `.error msg` is a thrown exception. -/
def dispatchTask (exec : QueuedTask → Except String (List String))
    (task : QueuedTask) (log : List String) : List String :=
  match task.kind with
  | .extractInsights =>
    match task.payload.bind (fun pl => pl.sourceId) with
    | none => appendLog log "extract-insights: missing sourceId"
    | some sid =>
      match exec task with
      | .ok lines => lines.foldl appendLog log
      | .error msg =>
        appendLog log ("Error extracting insights from " ++ sid ++ ": " ++ msg)
  | .organizeVault =>
    match exec task with
    | .ok lines => lines.foldl appendLog log
    | .error msg => appendLog log ("Error organizing vault: " ++ msg)
  | .organizeMoc =>
    match exec task with
    | .ok lines => lines.foldl appendLog log
    | .error msg => appendLog log ("Error building MOCs: " ++ msg)
  | .link =>
    match task.path with
    | none => log
    | some p =>
      match exec task with
      | .ok lines => lines.foldl appendLog log
      | .error msg => appendLog log ("Error linking " ++ p ++ ": " ++ msg)
  | .deduce =>
    match task.path with
    | none => log
    | some p =>
      match exec task with
      | .ok lines => lines.foldl appendLog log
      | .error msg => appendLog log ("Error deduce " ++ p ++ ": " ++ msg)
  | .induce =>
    match task.payload.bind (fun pl => pl.mocTitle),
        task.payload.bind (fun pl => pl.noteTitles) with
    | some mt, some _ =>
      match exec task with
      | .ok lines => lines.foldl appendLog log
      | .error msg => appendLog log ("Error induce " ++ mt ++ ": " ++ msg)
    | _, _ => log
  | .validate =>
    match exec task with
    | .ok lines => lines.foldl appendLog log
    | .error msg => appendLog log ("Error validation: " ++ msg)

/-- The `Stage complete: X → Y` log line of `runLoop`. -/
def stageCompleteLine (a b : Stage) : String :=
  "Stage complete: " ++ stageName a ++ " → " ++ stageName b

/-- The position of a stage in the fixed order (`STAGES.indexOf`). -/
def stageIdx (s : Stage) : Nat := STAGES.indexOf s

/-- One iteration of `runLoop`'s while body (lines 207-240 plus dispatch):
pop the earliest task of the current stage; if there is one, dispatch it
(stage unchanged, task consumed); otherwise advance to `STAGES[idx + 1]`
and enqueue that stage's derived tasks, or — when already at the last
stage — go idle and return. -/
def loopStep (populate : Stage → List QueuedTask)
    (exec : QueuedTask → Except String (List String)) (s : LoopState) :
    StepOutcome :=
  match dequeueForStage s.currentStage s.queue with
  | some (task, rest) =>
    .next ⟨s.currentStage, rest, dispatchTask exec task s.log⟩
  | none =>
    if s.queue.length = 0 then
      if stageIdx s.currentStage < STAGES.length - 1 then
        .next ⟨STAGES.getD (stageIdx s.currentStage + 1) s.currentStage,
          s.queue ++ populate (STAGES.getD (stageIdx s.currentStage + 1) s.currentStage),
          appendLog s.log (stageCompleteLine s.currentStage
            (STAGES.getD (stageIdx s.currentStage + 1) s.currentStage))⟩
      else .stopped (appendLog s.log "Queue empty. Idle.")
    else
      if stageIdx s.currentStage < STAGES.length - 1 then
        .next ⟨STAGES.getD (stageIdx s.currentStage + 1) s.currentStage,
          s.queue ++ populate (STAGES.getD (stageIdx s.currentStage + 1) s.currentStage),
          appendLog s.log (stageCompleteLine s.currentStage
            (STAGES.getD (stageIdx s.currentStage + 1) s.currentStage))⟩
      else .stopped s.log

/-- Zero or more loop iterations. -/
inductive Reaches (populate : Stage → List QueuedTask)
    (exec : QueuedTask → Except String (List String)) :
    LoopState → LoopState → Prop
  | refl (s : LoopState) : Reaches populate exec s s
  | step {s s1 s2 : LoopState} :
      loopStep populate exec s = .next s1 →
      Reaches populate exec s1 s2 → Reaches populate exec s s2

/-- Advancing from a non-final stage lands on the next stage of the fixed
order. -/
theorem stageIdx_getD_succ (st : Stage) (h : stageIdx st < STAGES.length - 1) :
    stageIdx (STAGES.getD (stageIdx st + 1) st) = stageIdx st + 1 := by
  revert h
  cases st <;> decide

/-- Each loop iteration keeps the stage or moves it exactly one position
forward in the fixed order. -/
theorem loopStep_next_stage (populate : Stage → List QueuedTask)
    (exec : QueuedTask → Except String (List String)) {s s' : LoopState}
    (h : loopStep populate exec s = .next s') :
    s'.currentStage = s.currentStage ∨
    (stageIdx s.currentStage < STAGES.length - 1 ∧
     stageIdx s'.currentStage = stageIdx s.currentStage + 1) := by
  rw [loopStep] at h
  rcases hdq : dequeueForStage s.currentStage s.queue with _ | pr
  · rw [hdq] at h
    simp only at h
    by_cases hq : s.queue.length = 0
    · rw [if_pos hq] at h
      by_cases hidx : stageIdx s.currentStage < STAGES.length - 1
      · rw [if_pos hidx] at h
        injection h with h2
        subst h2
        exact Or.inr ⟨hidx, stageIdx_getD_succ s.currentStage hidx⟩
      · rw [if_neg hidx] at h
        cases h
    · rw [if_neg hq] at h
      by_cases hidx : stageIdx s.currentStage < STAGES.length - 1
      · rw [if_pos hidx] at h
        injection h with h2
        subst h2
        exact Or.inr ⟨hidx, stageIdx_getD_succ s.currentStage hidx⟩
      · rw [if_neg hidx] at h
        cases h
  · rw [hdq] at h
    simp only at h
    injection h with h2
    subst h2
    exact Or.inl rfl

/-- The stage index never decreases along any number of iterations. -/
theorem reaches_stageIdx_le (populate : Stage → List QueuedTask)
    (exec : QueuedTask → Except String (List String)) {s s' : LoopState}
    (h : Reaches populate exec s s') :
    stageIdx s.currentStage ≤ stageIdx s'.currentStage := by
  induction h with
  | refl s => exact le_refl _
  | step h1 _ ih =>
    rcases loopStep_next_stage _ _ h1 with heq | ⟨_, hsucc⟩
    · rw [heq] at ih
      exact ih
    · rw [hsucc] at ih
      omega

/-! ## C6: monotone stage progression -/

/-- C6: within a single run of the scheduler loop, every iteration either
keeps the current stage or moves it to the immediately following stage of
the fixed seven-stage order (a `.stopped` outcome is the terminal idle
state); consequently, over any number of iterations the stage index never
decreases — a stage the loop has advanced past is never set again in that
run. -/
theorem runLoop_stage_monotonic :
    (∀ (populate : Stage → List QueuedTask)
        (exec : QueuedTask → Except String (List String)) (s s' : LoopState),
      loopStep populate exec s = .next s' →
        s'.currentStage = s.currentStage ∨
        (stageIdx s.currentStage < STAGES.length - 1 ∧
         stageIdx s'.currentStage = stageIdx s.currentStage + 1)) ∧
    (∀ (populate : Stage → List QueuedTask)
        (exec : QueuedTask → Except String (List String)) (s s' : LoopState),
      Reaches populate exec s s' →
        stageIdx s.currentStage ≤ stageIdx s'.currentStage) :=
  ⟨fun populate exec _ _ h => loopStep_next_stage populate exec h,
   fun populate exec _ _ h => reaches_stageIdx_le populate exec h⟩

/-- C6 witness: from the `extract` stage with an empty queue the loop
advances to exactly the next stage `organize`, and a zero-iteration run
keeps the stage index. -/
theorem runLoop_stage_monotonic_witness :
    ((LoopState.mk .organize []
        (appendLog [] (stageCompleteLine .extract .organize))).currentStage =
        (LoopState.mk .extract [] []).currentStage ∨
      (stageIdx (LoopState.mk .extract [] []).currentStage < STAGES.length - 1 ∧
       stageIdx (LoopState.mk .organize []
          (appendLog [] (stageCompleteLine .extract .organize))).currentStage =
         stageIdx (LoopState.mk .extract [] []).currentStage + 1)) ∧
    stageIdx (LoopState.mk .extract [] []).currentStage ≤
      stageIdx (LoopState.mk .extract [] []).currentStage :=
  ⟨runLoop_stage_monotonic.1 (fun _ => []) (fun _ => .ok [])
      (LoopState.mk .extract [] [])
      (LoopState.mk .organize []
        (appendLog [] (stageCompleteLine .extract .organize)))
      (by decide),
   runLoop_stage_monotonic.2 (fun _ => []) (fun _ => .ok [])
      (LoopState.mk .extract [] []) (LoopState.mk .extract [] [])
      (Reaches.refl _)⟩

/-! ## C9: per-task error isolation and fatal preconditions -/

/-- The module-level agent state consulted by `runLoop` before entering the
loop. -/
structure AgentGlobal where
  vaultPath : Option String
  hasLLM : Bool
  status : AgentStatus
  currentStage : Option Stage
  queue : List QueuedTask
  log : List String
deriving DecidableEq, Repr

/-- The pre-loop prologue of `runLoop` (lines 186-204): a missing vault path
or missing LLM client (or an already-running agent) only appends a log line
and returns without entering the loop (`false`); otherwise the status is set
to processing, the stage reset to `STAGES[0]` and the loop is entered
(`true`). -/
def runLoopEntry (g : AgentGlobal) : AgentGlobal × Bool :=
  if g.vaultPath = none then
    ({ g with log := appendLog g.log "Cannot start: set the vault path in the Vault section and click Save config." }, false)
  else if g.hasLLM = false then
    ({ g with log := appendLog g.log "Cannot start: add OPENAI_API_KEY to the .env file in the app folder and restart the server." }, false)
  else if g.status = .processing then
    ({ g with log := appendLog g.log "Agent is already running." }, false)
  else
    ({ g with status := .processing, currentStage := some (STAGES.getD 0 .extract) },
      true)

/-- C9: an exception while executing a dequeued task is caught: the
iteration still continues (`.next`), the stage is unchanged, the failed task
is consumed and never re-enqueued (the new queue is exactly the remainder),
and the catch appends a log line carrying the task's identity (shown for
the `link` and `extract-insights` kinds, whose identities are the note path
and the source id); whereas a missing vault path or missing LLM client makes
`runLoop` return before the loop, leaving the queue untouched. -/
theorem runLoop_error_policy :
    (∀ (populate : Stage → List QueuedTask)
        (exec : QueuedTask → Except String (List String))
        (s : LoopState) (task : QueuedTask) (rest : List QueuedTask),
      dequeueForStage s.currentStage s.queue = some (task, rest) →
      loopStep populate exec s =
        .next ⟨s.currentStage, rest, dispatchTask exec task s.log⟩) ∧
    (∀ (exec : QueuedTask → Except String (List String)) (task : QueuedTask)
        (p msg : String) (log : List String),
      task.kind = .link → task.path = some p → exec task = .error msg →
      dispatchTask exec task log =
        appendLog log ("Error linking " ++ p ++ ": " ++ msg)) ∧
    (∀ (exec : QueuedTask → Except String (List String)) (task : QueuedTask)
        (sid msg : String) (log : List String),
      task.kind = .extractInsights →
      task.payload.bind (fun pl => pl.sourceId) = some sid →
      exec task = .error msg →
      dispatchTask exec task log =
        appendLog log ("Error extracting insights from " ++ sid ++ ": " ++ msg)) ∧
    (∀ g : AgentGlobal, g.vaultPath = none ∨ g.hasLLM = false →
      (runLoopEntry g).2 = false ∧ (runLoopEntry g).1.queue = g.queue) := by
  refine ⟨?_, ?_, ?_, ?_⟩
  · intro populate exec s task rest hdq
    rw [loopStep, hdq]
  · intro exec task p msg log hk hp he
    rcases task with ⟨k, stg, pth, pl⟩
    simp only at hk hp
    subst hk
    subst hp
    simp [dispatchTask, he]
  · intro exec task sid msg log hk hsid he
    rcases task with ⟨k, stg, pth, pl⟩
    simp only at hk hsid
    subst hk
    simp [dispatchTask, hsid, he]
  · intro g hpre
    rcases hpre with h | h
    · simp [runLoopEntry, h]
    · by_cases hv : g.vaultPath = none
      · simp [runLoopEntry, hv]
      · simp [runLoopEntry, hv, h]

/-- C9 witness: a `link` task for `A.md` whose execution throws `boom` is
consumed, the loop continues with the same stage, the catch logs the path,
and a missing vault path returns before the loop with the queue intact. -/
theorem runLoop_error_policy_witness :
    loopStep (fun _ => []) (fun _ => .error "boom")
        (LoopState.mk .connect [QueuedTask.mk .link .connect (some "A.md") none] []) =
      .next (LoopState.mk .connect []
        (dispatchTask (fun _ => .error "boom")
          (QueuedTask.mk .link .connect (some "A.md") none) [])) ∧
    dispatchTask (fun _ => .error "boom")
        (QueuedTask.mk .link .connect (some "A.md") none) [] =
      appendLog [] ("Error linking " ++ "A.md" ++ ": " ++ "boom") ∧
    (runLoopEntry (AgentGlobal.mk none true .idle none
        [QueuedTask.mk .link .connect (some "A.md") none] [])).2 = false ∧
    (runLoopEntry (AgentGlobal.mk none true .idle none
        [QueuedTask.mk .link .connect (some "A.md") none] [])).1.queue =
      [QueuedTask.mk .link .connect (some "A.md") none] :=
  ⟨runLoop_error_policy.1 (fun _ => []) (fun _ => .error "boom")
      (LoopState.mk .connect [QueuedTask.mk .link .connect (some "A.md") none] [])
      (QueuedTask.mk .link .connect (some "A.md") none) [] (by decide),
   runLoop_error_policy.2.1 (fun _ => .error "boom")
      (QueuedTask.mk .link .connect (some "A.md") none) "A.md" "boom" []
      rfl rfl rfl,
   runLoop_error_policy.2.2.2 (AgentGlobal.mk none true .idle none
      [QueuedTask.mk .link .connect (some "A.md") none] []) (Or.inl rfl)⟩

/-! ## Progress document round-trip (src/storage/progress.ts)

`saveProgress` writes `JSON.stringify(full)` and `loadProgress` reads
`JSON.parse(raw)` and validates; the document is modelled as a JSON tree
(`JSON.stringify`/`JSON.parse` are mutually inverse on trees).  `loadProgress`
never converts the parsed strings — it trusts the TypeScript cast — so the
decoder parses the stage and kind strings back into the typed model; on the
image of the encoder this parse always succeeds. -/

/-- A JSON value, restricted to the shapes the progress document uses. -/
inductive Json
  | null
  | str (s : String)
  | arr (items : List Json)
  | obj (fields : List (String × Json))

/-- The string form of a task kind (the `TaskKind` union's literal values). -/
def kindName : TaskKind → String
  | .extractInsights => "extract-insights"
  | .organizeVault => "organize-vault"
  | .link => "link"
  | .organizeMoc => "organize-moc"
  | .deduce => "deduce"
  | .induce => "induce"
  | .validate => "validate"

def stageFromName (s : String) : Option Stage :=
  if s = "extract" then some .extract
  else if s = "organize" then some .organize
  else if s = "connect" then some .connect
  else if s = "deduce" then some .deduce
  else if s = "induce" then some .induce
  else if s = "organize-again" then some .organizeAgain
  else if s = "validate" then some .validate
  else none

def kindFromName (s : String) : Option TaskKind :=
  if s = "extract-insights" then some .extractInsights
  else if s = "organize-vault" then some .organizeVault
  else if s = "link" then some .link
  else if s = "organize-moc" then some .organizeMoc
  else if s = "deduce" then some .deduce
  else if s = "induce" then some .induce
  else if s = "validate" then some .validate
  else none

/-- Payload serialization: `JSON.stringify` drops absent (undefined)
fields. -/
def encodePayload (p : TaskPayload) : Json :=
  .obj ((match p.sourceId with | some s => [("sourceId", Json.str s)] | none => []) ++
    (match p.mocPath with | some s => [("mocPath", Json.str s)] | none => []) ++
    (match p.mocTitle with | some s => [("mocTitle", Json.str s)] | none => []) ++
    (match p.noteTitles with
      | some l => [("noteTitles", Json.arr (l.map Json.str))] | none => []) ++
    (match p.mocSummary with | some s => [("mocSummary", Json.str s)] | none => []))

/-- Task serialization (the shape written by `getQueueSnapshot` under
`JSON.stringify`). -/
def encodeTask (t : QueuedTask) : Json :=
  .obj ([("kind", Json.str (kindName t.kind)), ("stage", Json.str (stageName t.stage))] ++
    (match t.path with | some p => [("path", Json.str p)] | none => []) ++
    (match t.payload with | some pl => [("payload", encodePayload pl)] | none => []))

/-- progress.ts `saveProgress`: the `full` record written to
`.vaultmaker/progress.json`. -/
def encodeProgress (d : ProgressData) : Json :=
  .obj [("processedSourceIds", Json.arr (d.processedSourceIds.map Json.str)),
    ("currentStage",
      match d.currentStage with | some s => Json.str (stageName s) | none => Json.null),
    ("queue", Json.arr (d.queue.map encodeTask)),
    ("lastUpdated", Json.str d.lastUpdated)]

/-- A JSON array whose members are all strings, as a `List String`. -/
def decodeStringList : List Json → Option (List String)
  | [] => some []
  | .str s :: rest => (decodeStringList rest).map (fun l => s :: l)
  | _ :: _ => none

def decodePayload (j : Json) : Option TaskPayload :=
  match j with
  | .obj fields =>
    some
      { sourceId := match fields.lookup "sourceId" with
          | some (.str s) => some s | _ => none,
        mocPath := match fields.lookup "mocPath" with
          | some (.str s) => some s | _ => none,
        mocTitle := match fields.lookup "mocTitle" with
          | some (.str s) => some s | _ => none,
        noteTitles := match fields.lookup "noteTitles" with
          | some (.arr l) => decodeStringList l | _ => none,
        mocSummary := match fields.lookup "mocSummary" with
          | some (.str s) => some s | _ => none }
  | _ => none

/-- One queue element of `loadProgress`: kept only when it is an object with
string `kind` and `stage` (the filter on line 32-34), then read through the
TypeScript cast (parsed into the typed model). -/
def decodeTask (j : Json) : Option QueuedTask :=
  match j with
  | .obj fields =>
    match fields.lookup "kind", fields.lookup "stage" with
    | some (.str k), some (.str st) =>
      match kindFromName k, stageFromName st with
      | some kind, some stage =>
        some
          { kind := kind, stage := stage,
            path := match fields.lookup "path" with
              | some (.str p) => some p | _ => none,
            payload := match fields.lookup "payload" with
              | some pj => decodePayload pj | none => none }
      | _, _ => none
    | _, _ => none
  | _ => none

/-- progress.ts `loadProgress` on a parsed document: `null` unless
`processedSourceIds` and `queue` are arrays; non-string ids and queue
entries without string `kind`/`stage` are filtered out; everything else is
taken as-is. -/
def decodeProgress (j : Json) : Option ProgressData :=
  match j with
  | .obj fields =>
    match fields.lookup "processedSourceIds", fields.lookup "queue" with
    | some (.arr ids), some (.arr queue) =>
      some
        { processedSourceIds := ids.filterMap
            (fun x => match x with | .str s => some s | _ => none),
          currentStage := match fields.lookup "currentStage" with
            | some (.str s) => stageFromName s
            | _ => none,
          queue := queue.filterMap decodeTask,
          lastUpdated := match fields.lookup "lastUpdated" with
            | some (.str s) => s
            | _ => "" }
    | _, _ => none
  | _ => none

theorem stageFromName_stageName (s : Stage) : stageFromName (stageName s) = some s := by
  cases s <;> rfl

theorem kindFromName_kindName (k : TaskKind) : kindFromName (kindName k) = some k := by
  cases k <;> rfl

theorem decodeStringList_map_str (l : List String) :
    decodeStringList (l.map Json.str) = some l := by
  induction l with
  | nil => rfl
  | cons s rest ih =>
    rw [List.map_cons, decodeStringList, ih]
    rfl

theorem decodePayload_encodePayload (p : TaskPayload) :
    decodePayload (encodePayload p) = some p := by
  rcases p with ⟨sid, mp, mt, nts, ms⟩
  rcases sid with _ | sid <;> rcases mp with _ | mp <;> rcases mt with _ | mt <;>
    rcases nts with _ | nts <;> rcases ms with _ | ms <;>
    simp [encodePayload, decodePayload, List.lookup, decodeStringList_map_str]

theorem decodeTask_encodeTask (t : QueuedTask) : decodeTask (encodeTask t) = some t := by
  rcases t with ⟨k, st, pth, pl⟩
  rcases pth with _ | pth <;> rcases pl with _ | pl <;>
    simp [encodeTask, decodeTask, List.lookup, stageFromName_stageName,
      kindFromName_kindName, decodePayload_encodePayload]

/-! ## C7: progress round-trip -/

/-- C7: saving a well-formed progress record and loading it back returns the
record unchanged — in particular `processedSourceIds`, `currentStage` and
the queue contents all round-trip. -/
theorem progress_roundtrip (p : ProgressData) :
    decodeProgress (encodeProgress p) = some p := by
  rcases p with ⟨ids, stage, queue, lastUpdated⟩
  have hids : (ids.map Json.str).filterMap
      (fun x => match x with | .str s => some s | _ => none) = ids := by
    induction ids with
    | nil => rfl
    | cons s rest ih => simp [ih]
  have hqueue : (queue.map encodeTask).filterMap decodeTask = queue := by
    induction queue with
    | nil => rfl
    | cons t rest ih => simp [decodeTask_encodeTask, ih]
  rcases stage with _ | stage <;>
    simp [encodeProgress, decodeProgress, List.lookup, hids, hqueue,
      stageFromName_stageName]

/-! ## C1: dequeueForStage -/

/-- C1: for every queue and stage `S`, `dequeueForStage S` returns `none`
exactly when no queued task has stage `S`; otherwise it removes and returns
the earliest task whose stage is `S` (so it never returns a task of a
different stage), and all other tasks remain in their original relative
order. -/
theorem dequeueForStage_spec (S : Stage) (q : List QueuedTask) :
    (dequeueForStage S q = none → ∀ t ∈ q, t.stage ≠ S) ∧
    (∀ t q', dequeueForStage S q = some (t, q') →
      t.stage = S ∧ ∃ pre post, q = pre ++ t :: post ∧ q' = pre ++ post ∧
        ∀ u ∈ pre, u.stage ≠ S) := by
  induction q with
  | nil =>
    refine ⟨fun _ t ht => absurd ht (List.not_mem_nil t), fun t q' h => ?_⟩
    simp [dequeueForStage] at h
  | cons x xs ih =>
    by_cases hx : x.stage = S
    · have hdq : dequeueForStage S (x :: xs) = some (x, xs) := by
        simp [dequeueForStage, hx]
      refine ⟨fun h => ?_, fun t q' h => ?_⟩
      · rw [hdq] at h; cases h
      · rw [hdq] at h
        obtain ⟨h1, h2⟩ : x = t ∧ xs = q' := by simpa using h
        subst h1; subst h2
        exact ⟨hx, [], xs, by simp, by simp, fun u hu => absurd hu (List.not_mem_nil u)⟩
    · have hdq : dequeueForStage S (x :: xs) =
          (dequeueForStage S xs).map (fun p => (p.1, x :: p.2)) := by
        simp [dequeueForStage, hx]
      refine ⟨fun h => ?_, fun t q' h => ?_⟩
      · rw [hdq] at h
        rcases hnone : dequeueForStage S xs with _ | p
        · intro t ht
          rcases List.mem_cons.mp ht with rfl | hmem
          · exact hx
          · exact (ih.1 hnone) t hmem
        · rw [hnone] at h; cases h
      · rw [hdq] at h
        rcases hsome : dequeueForStage S xs with _ | p
        · rw [hsome] at h; cases h
        · rw [hsome] at h
          obtain ⟨h1, h2⟩ : p.1 = t ∧ x :: p.2 = q' := by simpa using h
          subst h1; subst h2
          obtain ⟨hstage, pre, post, hsplit, hrest, hpre⟩ := ih.2 p.1 p.2 (by rw [hsome])
          refine ⟨hstage, x :: pre, post, by simp [hsplit], by simp [hrest], ?_⟩
          intro u hu
          rcases List.mem_cons.mp hu with rfl | hmem
          · exact hx
          · exact hpre u hmem

/-- C1 witness: scenario C of the spec — queue `[link@connect A.md,
deduce@deduce B.md]`, dequeue for `connect` returns the link task and leaves
the deduce task untouched. -/
theorem dequeueForStage_spec_witness :
    (QueuedTask.mk .link .connect (some "A.md") none).stage = Stage.connect ∧
    ∃ pre post,
      [QueuedTask.mk .link .connect (some "A.md") none,
       QueuedTask.mk .deduce .deduce (some "B.md") none] =
        pre ++ QueuedTask.mk .link .connect (some "A.md") none :: post ∧
      [QueuedTask.mk .deduce .deduce (some "B.md") none] = pre ++ post ∧
      ∀ u ∈ pre, u.stage ≠ Stage.connect :=
  (dequeueForStage_spec Stage.connect
      [QueuedTask.mk .link .connect (some "A.md") none,
       QueuedTask.mk .deduce .deduce (some "B.md") none]).2
    (QueuedTask.mk .link .connect (some "A.md") none)
    [QueuedTask.mk .deduce .deduce (some "B.md") none]
    (by decide)

/-! ## C2: needsProcessing -/

/-- C2: `needsProcessing index relPath contentHash sourceDir` is true iff the
tracked root changed, or the relative path has no entry, or the stored hash
differs from the given hash; in all other cases it is false.  The function is
pure: its result is determined by exactly these four arguments. -/
theorem needsProcessing_spec (index : SourceIndexData)
    (relPath contentHash sourceDir : String) :
    needsProcessing index relPath contentHash sourceDir = true ↔
      index.sourceDir ≠ sourceDir ∨
      index.entries.lookup relPath = none ∨
      ∃ e, index.entries.lookup relPath = some e ∧ e.contentHash ≠ contentHash := by
  unfold needsProcessing
  by_cases hdir : index.sourceDir = sourceDir
  · simp only [hdir, ne_eq, not_true_eq_false, if_false, false_or]
    rcases hent : index.entries.lookup relPath with _ | e
    · simp
    · by_cases hh : e.contentHash = contentHash <;> simp [hh]
  · simp [hdir]

/-! ## C10: bounded in-memory log -/

/-- Helper for C10: folding `appendLog` over any starting log of length at
most `maxLogLines` keeps exactly the most recent `maxLogLines` lines. -/
theorem foldl_appendLog (lines : List String) :
    ∀ l : List String, l.length ≤ maxLogLines →
      lines.foldl appendLog l = (l ++ lines).drop (l.length + lines.length - maxLogLines) := by
  induction lines with
  | nil =>
    intro l hl
    have h0 : l.length + ([] : List String).length - maxLogLines = 0 := by
      rw [List.length_nil]
      omega
    rw [List.foldl_nil, List.append_nil, h0, List.drop_zero]
  | cons x xs ih =>
    intro l hl
    rw [List.foldl_cons]
    by_cases hlen : l.length < maxLogLines
    · have hnot : ¬ maxLogLines < (l ++ [x]).length := by
        rw [List.length_append, List.length_cons, List.length_nil]
        omega
      have happ : appendLog l x = l ++ [x] := by
        rw [appendLog, if_neg hnot]
      have hle : (l ++ [x]).length ≤ maxLogLines := by
        rw [List.length_append, List.length_cons, List.length_nil]
        omega
      rw [happ, ih (l ++ [x]) hle]
      have harr : (l ++ [x]) ++ xs = l ++ x :: xs := by simp
      have hidx : (l ++ [x]).length + xs.length - maxLogLines =
          l.length + (x :: xs).length - maxLogLines := by
        rw [List.length_append, List.length_cons, List.length_cons, List.length_nil]
        omega
      rw [harr, hidx]
    · have hleq : l.length = maxLogLines := Nat.le_antisymm hl (Nat.le_of_not_lt hlen)
      have hlt : maxLogLines < (l ++ [x]).length := by
        rw [List.length_append, List.length_cons, List.length_nil]
        omega
      have happ : appendLog l x = (l ++ [x]).drop 1 := by
        rw [appendLog, if_pos hlt]
      have hdlen : ((l ++ [x]).drop 1).length = maxLogLines := by
        rw [List.length_drop, List.length_append, List.length_cons, List.length_nil]
        omega
      have hone : (1 : Nat) ≤ l.length := by
        rw [hleq]; rw [maxLogLines]; omega
      rw [happ, ih ((l ++ [x]).drop 1) (le_of_eq hdlen), hdlen]
      have hsplit : (l ++ [x]).drop 1 ++ xs = (l ++ x :: xs).drop 1 := by
        rw [List.drop_append_of_le_length hone, List.drop_append_of_le_length hone]
        simp
      rw [hsplit, List.drop_drop]
      congr 1
      rw [List.length_cons]
      omega

/-- C10: starting from the empty log, after any sequence of `appendLog` calls
`getLog` returns at most `maxLogLines` (100) lines, and exactly the most
recently appended lines in append order: the result is the input sequence
with all but the last 100 lines dropped (the oldest line is dropped on each
overflow). -/
theorem appendLog_getLog_bounded (lines : List String) :
    (getLog (lines.foldl appendLog [])).length ≤ maxLogLines ∧
    getLog (lines.foldl appendLog []) = lines.drop (lines.length - maxLogLines) := by
  have h := foldl_appendLog lines [] (by simp)
  simp only [List.nil_append, List.length_nil, Nat.zero_add] at h
  refine ⟨?_, by simpa [getLog] using h⟩
  rw [getLog, h, List.length_drop]
  omega

/-! ## C8: restoreFromProgress frame conditions -/

/-- C8: `restoreFromProgress` never clobbers a populated in-memory queue:
whenever the in-memory queue is non-empty, or the stored progress is absent /
invalid (`loaded = none`) or has an empty queue, the in-memory queue is
returned unchanged and `restored = false`; only when the in-memory queue is
empty and the stored queue non-empty is the queue replaced wholesale by the
stored tasks (with `restored = true`). -/
theorem restoreFromProgress_spec (loaded : Option ProgressData)
    (queue : List QueuedTask) :
    (0 < queue.length →
      (restoreFromProgress loaded queue).1 = queue ∧
      (restoreFromProgress loaded queue).2.restored = false) ∧
    ((loaded = none ∨ ∃ d, loaded = some d ∧ d.queue = []) →
      (restoreFromProgress loaded queue).1 = queue ∧
      (restoreFromProgress loaded queue).2.restored = false) ∧
    (∀ d, loaded = some d → queue = [] → d.queue ≠ [] →
      (restoreFromProgress loaded queue).1 = d.queue ∧
      (restoreFromProgress loaded queue).2.restored = true ∧
      (restoreFromProgress loaded queue).2.currentStage = d.currentStage) := by
  refine ⟨?_, ?_, ?_⟩
  · intro hq
    rcases loaded with _ | d
    · simp [restoreFromProgress]
    · by_cases hdq : d.queue.length = 0
      · simp [restoreFromProgress, hdq]
      · simp [restoreFromProgress, hdq, hq]
  · intro h
    rcases h with rfl | ⟨d, rfl, hdq⟩
    · simp [restoreFromProgress]
    · simp [restoreFromProgress, hdq]
  · intro d hd hq hdq
    subst hd; subst hq
    have hlen : ¬ d.queue.length = 0 := by
      simpa [List.length_eq_zero] using hdq
    simp [restoreFromProgress, hlen, restoreQueue]

/-- C8 witness: with an empty in-memory queue and a stored non-empty queue the
queue is replaced (restored = true); with a populated in-memory queue nothing
changes (restored = false). -/
theorem restoreFromProgress_spec_witness :
    ((restoreFromProgress
        (some ⟨["s1"], some .extract, [QueuedTask.mk .link .connect none none], "t"⟩)
        []).1 = [QueuedTask.mk .link .connect none none] ∧
      (restoreFromProgress
        (some ⟨["s1"], some .extract, [QueuedTask.mk .link .connect none none], "t"⟩)
        []).2.restored = true ∧
      (restoreFromProgress
        (some ⟨["s1"], some .extract, [QueuedTask.mk .link .connect none none], "t"⟩)
        []).2.currentStage = some Stage.extract) ∧
    ((restoreFromProgress
        (some ⟨["s1"], some .extract, [QueuedTask.mk .link .connect none none], "t"⟩)
        [QueuedTask.mk .validate .validate none none]).1 =
        [QueuedTask.mk .validate .validate none none] ∧
      (restoreFromProgress
        (some ⟨["s1"], some .extract, [QueuedTask.mk .link .connect none none], "t"⟩)
        [QueuedTask.mk .validate .validate none none]).2.restored = false) :=
  ⟨(restoreFromProgress_spec
      (some ⟨["s1"], some .extract, [QueuedTask.mk .link .connect none none], "t"⟩)
      []).2.2 _ rfl rfl (by decide),
   (restoreFromProgress_spec
      (some ⟨["s1"], some .extract, [QueuedTask.mk .link .connect none none], "t"⟩)
      [QueuedTask.mk .validate .validate none none]).1 (by decide)⟩

end VaultMaker
